import Mathlib

set_option maxRecDepth 20000

/-!
Verification development for brainfuck.c, a brainfuck interpreter built on
doubly linked StackBlock chains.  The two tapes (instruction tape and data
tape) are modelled as zippers over lists of byte values (Nat, kept below
256 by every operation).  Reading the source file through fgetc is modelled
by a list of byte values; the C code stores the fgetc result in a char and
compares it with EOF, so a source byte 255 ends the read loop exactly like
the true end of file does.
-/

/-- Byte value of the move-forward command of brainfuck.c. -/
def MOVE_FORWARD : Nat := 62

/-- Byte value of the move-backward command. -/
def MOVE_BACKWARD : Nat := 60

/-- Byte value of the increment command. -/
def INCREMENT_DATA : Nat := 43

/-- Byte value of the decrement command. -/
def DECREMENT_DATA : Nat := 45

/-- Byte value of the output command. -/
def OUTPUT_DATA : Nat := 46

/-- Byte value of the input command. -/
def INPUT_DATA : Nat := 44

/-- Byte value of the loop-open command. -/
def LOOP_START : Nat := 91

/-- Byte value of the loop-close command. -/
def LOOP_END : Nat := 93

/-- Doubly linked StackBlock chain of brainfuck.c, seen from the block the
cursor is on: blocks to the left (nearest first), the current data byte,
and blocks to the right (nearest first). -/
structure Tape where
  left : List Nat
  cur : Nat
  right : List Nat

/-- All cell values of a tape, leftmost cell first. -/
def Tape.toList (t : Tape) : List Nat := t.left.reverse ++ t.cur :: t.right

/-- moveForward of brainfuck.c: step to the next block; when the next
pointer is NULL a fresh block with data 0 is allocated and linked in. -/
def moveForward (t : Tape) : Tape :=
  match t with
  | ⟨l, c, []⟩ => ⟨c :: l, 0, []⟩
  | ⟨l, c, b :: r⟩ => ⟨c :: l, b, r⟩

/-- moveBackward of brainfuck.c: step to the previous block; when the prev
pointer is NULL a fresh block with data 0 is allocated and linked in. -/
def moveBackward (t : Tape) : Tape :=
  match t with
  | ⟨[], c, r⟩ => ⟨[], 0, c :: r⟩
  | ⟨b :: l, c, r⟩ => ⟨l, b, c :: r⟩

/-- incrementData of brainfuck.c: the data byte is a char, so adding one
wraps modulo 256. -/
def incrementData (t : Tape) : Tape := { t with cur := (t.cur + 1) % 256 }

/-- decrementData of brainfuck.c: subtracting one wraps modulo 256. -/
def decrementData (t : Tape) : Tape := { t with cur := (t.cur + 255) % 256 }

/-- outputData of brainfuck.c: printf emits the current data byte. -/
def outputData (t : Tape) : Nat := t.cur % 256

/-- inputData of brainfuck.c: getchar stores the next input byte into the
current block.  At end of input getchar returns EOF, the int -1, and the
char data field keeps its low byte, 255. -/
def inputData (t : Tape) (inp : List Nat) : Tape × List Nat :=
  match inp with
  | [] => ({ t with cur := 255 }, [])
  | b :: rest => ({ t with cur := b % 256 }, rest)

/-- Update of loopCounter in checkBrackets for one source byte. -/
def bracketCount (b : Nat) (k : Int) : Int :=
  if b = LOOP_START then k + 1 else if b = LOOP_END then k - 1 else k

/-- Read loop of checkBrackets in brainfuck.c over the remaining file
bytes.  A byte 255 stored into the char command compares equal to EOF and
ends the loop, after which the function returns loopCounter == 0; the
function returns 0 as soon as loopCounter drops below zero. -/
def checkBracketsAux : List Nat → Int → Bool
  | [], k => decide (k = 0)
  | b :: rest, k =>
    if b = 255 then decide (k = 0)
    else if bracketCount b k < 0 then false
    else checkBracketsAux rest (bracketCount b k)

/-- checkBrackets of brainfuck.c on the list of file bytes. -/
def checkBrackets (src : List Nat) : Bool := checkBracketsAux src 0

/-- Command test of parseInstructions: is the byte one of the eight
recognized command bytes. -/
def isInstr (b : Nat) : Bool :=
  b == MOVE_FORWARD || b == MOVE_BACKWARD || b == INCREMENT_DATA ||
  b == DECREMENT_DATA || b == OUTPUT_DATA || b == INPUT_DATA ||
  b == LOOP_START || b == LOOP_END

/-- Read loop of parseInstructions in brainfuck.c, returning the list of
all instruction tape cells, head block first.  The parameter g is the data
byte the current block holds before anything is written into it: main
allocates the head block with malloc and never initialises its data field,
so the model keeps that byte abstract.  Writing a command byte into the
current block is followed by moveForward, which allocates the next block
with data 0; a byte 255 read into the char command compares equal to EOF
and ends the loop. -/
def parseAux : List Nat → Nat → List Nat
  | [], g => [g]
  | b :: rest, g =>
    if b = 255 then [g]
    else if isInstr b then b :: parseAux rest 0
    else parseAux rest g

/-- parseInstructions of brainfuck.c: the instruction tape contents built
from the source bytes, with g the uninitialised data byte of the head
block. -/
def parseInstructions (src : List Nat) (g : Nat) : List Nat := parseAux src g

/-- Execution state of executeProgram: the instruction tape seen from the
instruction pointer, the data tape seen from the data pointer, the
remaining input bytes, the emitted output bytes, and a ghost trace that
records the command byte of every executed step.  The trace has no
counterpart in the C code; it only instruments the model. -/
structure MachineState where
  iTape : Tape
  dTape : Tape
  input : List Nat
  output : List Nat
  trace : List Nat

/-- Update of loopCounter in the forward bracket scan of executeProgram.
The C counter is an int that starts at 1 and is only ever decremented when
it is still positive, so Nat with truncated subtraction agrees with it. -/
def fwdCounter (b k : Nat) : Nat :=
  if b = LOOP_START then k + 1 else if b = LOOP_END then k - 1 else k

/-- Forward scan of executeProgram looking for the matching loop-close:
from the cell (l, c, r) keep moving forward and updating the counter until
it reaches zero, returning the tape at the match.  When the scan moves
past the last cell, moveForward in the C code keeps allocating fresh zero
cells, the counter never changes again and the while loop never exits; the
model returns none for that divergence. -/
def scanForward : List Nat → Nat → List Nat → Nat → Option Tape
  | _, _, [], _ => none
  | l, c, b :: rs, k =>
    if fwdCounter b k = 0 then some ⟨c :: l, b, rs⟩
    else scanForward (c :: l) b rs (fwdCounter b k)

/-- Update of loopCounter in the backward bracket scan of executeProgram. -/
def bwdCounter (b k : Nat) : Nat :=
  if b = LOOP_END then k + 1 else if b = LOOP_START then k - 1 else k

/-- Backward scan of executeProgram looking for the matching loop-open,
symmetric to the forward scan; none models the divergence of the C loop
past the leftmost cell. -/
def scanBackward : List Nat → Nat → List Nat → Nat → Option Tape
  | [], _, _, _ => none
  | b :: ls, c, r, k =>
    if bwdCounter b k = 0 then some ⟨ls, b, c :: r⟩
    else scanBackward ls b (c :: r) (bwdCounter b k)

/-- One iteration of the while loop of executeProgram: dispatch on the
data byte under the instruction pointer, apply the effect, then advance
the instruction pointer one step forward.  Returns none when the loop has
already ended (sentinel byte 0 under the instruction pointer) or when a
bracket scan diverges. -/
def stepOnce (s : MachineState) : Option MachineState :=
  if s.iTape.cur = 0 then none
  else if s.iTape.cur = MOVE_FORWARD then
    some { s with iTape := moveForward s.iTape, dTape := moveForward s.dTape,
                  trace := s.trace ++ [MOVE_FORWARD] }
  else if s.iTape.cur = MOVE_BACKWARD then
    some { s with iTape := moveForward s.iTape, dTape := moveBackward s.dTape,
                  trace := s.trace ++ [MOVE_BACKWARD] }
  else if s.iTape.cur = INCREMENT_DATA then
    some { s with iTape := moveForward s.iTape, dTape := incrementData s.dTape,
                  trace := s.trace ++ [INCREMENT_DATA] }
  else if s.iTape.cur = DECREMENT_DATA then
    some { s with iTape := moveForward s.iTape, dTape := decrementData s.dTape,
                  trace := s.trace ++ [DECREMENT_DATA] }
  else if s.iTape.cur = OUTPUT_DATA then
    some { s with iTape := moveForward s.iTape, output := s.output ++ [outputData s.dTape],
                  trace := s.trace ++ [OUTPUT_DATA] }
  else if s.iTape.cur = INPUT_DATA then
    some { s with iTape := moveForward s.iTape, dTape := (inputData s.dTape s.input).1,
                  input := (inputData s.dTape s.input).2, trace := s.trace ++ [INPUT_DATA] }
  else if s.iTape.cur = LOOP_START then
    if s.dTape.cur = 0 then
      (scanForward s.iTape.left s.iTape.cur s.iTape.right 1).map
        (fun t => { s with iTape := moveForward t, trace := s.trace ++ [LOOP_START] })
    else
      some { s with iTape := moveForward s.iTape, trace := s.trace ++ [LOOP_START] }
  else if s.iTape.cur = LOOP_END then
    if s.dTape.cur = 0 then
      some { s with iTape := moveForward s.iTape, trace := s.trace ++ [LOOP_END] }
    else
      (scanBackward s.iTape.left s.iTape.cur s.iTape.right 1).map
        (fun t => { s with iTape := moveForward t, trace := s.trace ++ [LOOP_END] })
  else
    some { s with iTape := moveForward s.iTape, trace := s.trace ++ [s.iTape.cur] }

/-- While loop of executeProgram in brainfuck.c, with explicit fuel
bounding the number of executed instructions.  The result is some final
state exactly when the loop reaches the sentinel byte 0 within the fuel
bound; none means the bound ran out or a bracket scan diverged. -/
def executeProgram : Nat → MachineState → Option MachineState
  | 0, s => if s.iTape.cur = 0 then some s else none
  | fuel + 1, s =>
    if s.iTape.cur = 0 then some s
    else (stepOnce s).bind (executeProgram fuel)

/-- Exactly n iterations of the while loop of executeProgram, stopping
with none when the program halts earlier or a scan diverges. -/
def stepN : Nat → MachineState → Option MachineState
  | 0, s => some s
  | n + 1, s => (stepOnce s).bind (stepN n)

/-- Initial machine state of main: the instruction pointer on the head
block of the parsed instruction tape, the data tape a single block with
data 0, no output yet. -/
def initState (prog : List Nat) (inp : List Nat) : MachineState :=
  match prog with
  | [] => ⟨⟨[], 0, []⟩, ⟨[], 0, []⟩, inp, [], []⟩
  | c :: rest => ⟨⟨[], c, rest⟩, ⟨[], 0, []⟩, inp, [], []⟩

/-- Termination of a run: some fuel bound suffices to reach the sentinel. -/
def Terminates (s : MachineState) : Prop := ∃ fuel r, executeProgram fuel s = some r

/-- Depth contribution of one source byte in the specification reading of
the bracket validator: +1 per loop-open byte, -1 per loop-close byte. -/
def depthDelta (b : Nat) : Int :=
  if b = LOOP_START then 1 else if b = LOOP_END then -1 else 0

/-- Running depth of a source byte list in the specification reading. -/
def streamDepth (src : List Nat) : Int := (src.map depthDelta).sum

/-- Iterated calls of inputData, threading the data cell and the remaining
input stream. -/
def inputReads : Nat → Tape × List Nat → Tape × List Nat
  | 0, p => p
  | k + 1, p => inputReads k (inputData p.1 p.2)

/-- C5: the program of 256 increments followed by output, started on a
zero cell, emits exactly the same output as the program of output alone,
namely the single byte 0, because cell arithmetic wraps modulo 256. -/
theorem C5_wraparound :
    (executeProgram 300 (initState (parseInstructions
        (List.replicate 256 INCREMENT_DATA ++ [OUTPUT_DATA]) 0) [])).map MachineState.output
      = (executeProgram 10 (initState (parseInstructions [OUTPUT_DATA] 0) [])).map
          MachineState.output
    ∧ (executeProgram 10 (initState (parseInstructions [OUTPUT_DATA] 0) [])).map
        MachineState.output = some [0] := ⟨rfl, rfl⟩

/-- C6: the program +[-] terminates; the executed steps are exactly the
four commands + [ - ] in order, so the loop body - runs exactly once, and
the final data cell at the starting position holds 0. -/
theorem C6_bounded_loop :
    (executeProgram 10 (initState (parseInstructions [43, 91, 45, 93] 0) [])).map
      (fun s => (s.dTape.left, s.dTape.cur, s.trace)) = some ([], 0, [43, 91, 45, 93]) := rfl

/-- C3: evaluation of the loader at the failing inputs.  main never
initialises the data byte of the malloc-allocated head block, modelled by
the abstract byte g (here 65).  On a source with no command bytes the
terminal cell is that uninitialised byte, not the zero sentinel the spec
requires; as soon as one command byte is loaded, the terminal cell is the
freshly allocated zero block. -/
theorem C3_sentinel_bug :
    parseInstructions [] 65 = [65] ∧ parseInstructions [120] 65 = [65] ∧
    parseInstructions [43] 65 = [43, 0] := by decide

/-- Equation lemma: moveForward past the right end allocates a zero cell. -/
theorem moveForward_nil (l : List Nat) (c : Nat) : moveForward ⟨l, c, []⟩ = ⟨c :: l, 0, []⟩ := rfl

/-- Equation lemma: moveForward onto an existing right neighbour. -/
theorem moveForward_cons (l : List Nat) (c b : Nat) (r : List Nat) :
    moveForward ⟨l, c, b :: r⟩ = ⟨c :: l, b, r⟩ := rfl

/-- Equation lemma: moveBackward past the left end allocates a zero cell. -/
theorem moveBackward_nil (c : Nat) (r : List Nat) : moveBackward ⟨[], c, r⟩ = ⟨[], 0, c :: r⟩ := rfl

/-- Equation lemma: moveBackward onto an existing left neighbour. -/
theorem moveBackward_cons (l : List Nat) (b c : Nat) (r : List Nat) :
    moveBackward ⟨b :: l, c, r⟩ = ⟨l, b, c :: r⟩ := rfl

/-- Moving forward always pushes the old current cell onto the left part. -/
theorem moveForward_left (t : Tape) : (moveForward t).left = t.cur :: t.left := by
  obtain ⟨l, c, r⟩ := t
  cases r <;> rfl

/-- Moving backward always pushes the old current cell onto the right part. -/
theorem moveBackward_right (t : Tape) : (moveBackward t).right = t.cur :: t.right := by
  obtain ⟨l, c, r⟩ := t
  cases l <;> rfl

/-- Moving forward N times and then backward N times puts the cursor back
on the starting cell: the left part and the current value are restored. -/
theorem backward_forward_roundtrip : ∀ (N : Nat) (t : Tape),
    (moveBackward^[N] (moveForward^[N] t)).left = t.left
    ∧ (moveBackward^[N] (moveForward^[N] t)).cur = t.cur := by
  intro N
  induction N with
  | zero => exact fun t => ⟨rfl, rfl⟩
  | succ n ih =>
    intro t
    rw [Function.iterate_succ_apply moveForward, Function.iterate_succ_apply' moveBackward]
    obtain ⟨hl, hc⟩ := ih (moveForward t)
    rcases hT : moveBackward^[n] (moveForward^[n] (moveForward t)) with ⟨sl, sc, sr⟩
    rw [hT] at hl hc
    rw [moveForward_left] at hl
    simp only at hl
    rw [hl, moveBackward_cons]
    exact ⟨rfl, rfl⟩

/-- Moving backward N times and then forward N times puts the cursor back
on the starting cell: the right part and the current value are restored. -/
theorem forward_backward_roundtrip : ∀ (N : Nat) (t : Tape),
    (moveForward^[N] (moveBackward^[N] t)).right = t.right
    ∧ (moveForward^[N] (moveBackward^[N] t)).cur = t.cur := by
  intro N
  induction N with
  | zero => exact fun t => ⟨rfl, rfl⟩
  | succ n ih =>
    intro t
    rw [Function.iterate_succ_apply moveBackward, Function.iterate_succ_apply' moveForward]
    obtain ⟨hr, hc⟩ := ih (moveBackward t)
    rcases hT : moveForward^[n] (moveBackward^[n] (moveBackward t)) with ⟨sl, sc, sr⟩
    rw [hT] at hr hc
    rw [moveBackward_right] at hr
    simp only at hr
    rw [hr, moveForward_cons]
    exact ⟨rfl, rfl⟩

/-- C7: movement past either end of a tape lands on a freshly allocated
cell holding 0, and moving the cursor forward N times then backward N
times, or backward N times then forward N times, returns to the starting
cell with its stored value unchanged. -/
theorem C7_tape_roundtrip (l : List Nat) (c : Nat) (t : Tape) (N : Nat) :
    (moveForward ⟨l, c, []⟩).cur = 0
    ∧ (moveBackward ⟨[], c, l⟩).cur = 0
    ∧ ((moveBackward^[N] (moveForward^[N] t)).cur = t.cur
       ∧ (moveBackward^[N] (moveForward^[N] t)).left = t.left)
    ∧ ((moveForward^[N] (moveBackward^[N] t)).cur = t.cur
       ∧ (moveForward^[N] (moveBackward^[N] t)).right = t.right) :=
  ⟨rfl, rfl, ⟨(backward_forward_roundtrip N t).2, (backward_forward_roundtrip N t).1⟩,
   ⟨(forward_backward_roundtrip N t).2, (forward_backward_roundtrip N t).1⟩⟩

/-- The current cell is always among the tape cells. -/
theorem cur_mem_toList (t : Tape) : t.cur ∈ t.toList := by
  simp [Tape.toList]

/-- On a tape with no right part the last cell is the current cell. -/
theorem toList_getLast_of_right_nil (l : List Nat) (c : Nat) :
    (Tape.toList ⟨l, c, []⟩).getLast? = some c := by
  simp [Tape.toList]

/-- A successful forward scan visits exactly the existing cells: the cell
values of the returned tape are those of the starting tape. -/
theorem scanForward_toList : ∀ (r l : List Nat) (c k : Nat) (t : Tape),
    scanForward l c r k = some t → t.toList = Tape.toList ⟨l, c, r⟩ := by
  intro r
  induction r with
  | nil => intro l c k t h; simp [scanForward] at h
  | cons b rs ih =>
    intro l c k t h
    simp only [scanForward] at h
    by_cases hk : fwdCounter b k = 0
    · rw [if_pos hk] at h
      cases Option.some.inj h
      simp [Tape.toList]
    · rw [if_neg hk] at h
      rw [ih (c :: l) b (fwdCounter b k) t h]
      simp [Tape.toList]

/-- A successful forward scan started with a positive counter stops on a
loop-close byte. -/
theorem scanForward_cur : ∀ (r l : List Nat) (c k : Nat) (t : Tape),
    k ≠ 0 → scanForward l c r k = some t → t.cur = LOOP_END := by
  intro r
  induction r with
  | nil => intro l c k t hk h; simp [scanForward] at h
  | cons b rs ih =>
    intro l c k t hk h
    simp only [scanForward] at h
    by_cases h0 : fwdCounter b k = 0
    · rw [if_pos h0] at h
      cases Option.some.inj h
      show b = LOOP_END
      by_cases hb1 : b = LOOP_START
      · exfalso; simp [fwdCounter, hb1] at h0
      · by_cases hb2 : b = LOOP_END
        · exact hb2
        · exfalso; simp [fwdCounter, hb1, hb2] at h0; exact hk h0
    · rw [if_neg h0] at h
      exact ih _ _ _ _ h0 h

/-- A successful backward scan visits exactly the existing cells. -/
theorem scanBackward_toList : ∀ (l r : List Nat) (c k : Nat) (t : Tape),
    scanBackward l c r k = some t → t.toList = Tape.toList ⟨l, c, r⟩ := by
  intro l
  induction l with
  | nil => intro r c k t h; simp [scanBackward] at h
  | cons b ls ih =>
    intro r c k t h
    simp only [scanBackward] at h
    by_cases hk : bwdCounter b k = 0
    · rw [if_pos hk] at h
      cases Option.some.inj h
      simp [Tape.toList]
    · rw [if_neg hk] at h
      rw [ih (c :: r) b (bwdCounter b k) t h]
      simp [Tape.toList]

/-- A successful backward scan started with a positive counter stops on a
loop-open byte. -/
theorem scanBackward_cur : ∀ (l r : List Nat) (c k : Nat) (t : Tape),
    k ≠ 0 → scanBackward l c r k = some t → t.cur = LOOP_START := by
  intro l
  induction l with
  | nil => intro r c k t hk h; simp [scanBackward] at h
  | cons b ls ih =>
    intro r c k t hk h
    simp only [scanBackward] at h
    by_cases h0 : bwdCounter b k = 0
    · rw [if_pos h0] at h
      cases Option.some.inj h
      show b = LOOP_START
      by_cases hb1 : b = LOOP_END
      · exfalso; simp [bwdCounter, hb1] at h0
      · by_cases hb2 : b = LOOP_START
        · exact hb2
        · exfalso; simp [bwdCounter, hb2, hb1] at h0; exact hk h0
    · rw [if_neg h0] at h
      exact ih _ _ _ _ h0 h

/-- Advancing from a cell that is not the last cell of the tape keeps the
cell values; not being last is witnessed by the last cell holding 0 while
the current cell does not. -/
theorem moveForward_toList (t : Tape) (hc : t.cur ≠ 0)
    (hl : t.toList.getLast? = some 0) : (moveForward t).toList = t.toList := by
  obtain ⟨l, c, r⟩ := t
  cases r with
  | nil =>
    exfalso
    rw [toList_getLast_of_right_nil] at hl
    exact hc (Option.some.inj hl)
  | cons b rs =>
    simp [moveForward, Tape.toList]

/-- Case analysis of one execution step: the loop only runs off the
sentinel, and the new instruction tape is the advance of either the old
tape or of a successful bracket scan of it. -/
theorem stepOnce_cases (s s2 : MachineState) (h : stepOnce s = some s2) :
    s.iTape.cur ≠ 0 ∧
    (s2.iTape = moveForward s.iTape
     ∨ (∃ t, scanForward s.iTape.left s.iTape.cur s.iTape.right 1 = some t
          ∧ s2.iTape = moveForward t)
     ∨ (∃ t, scanBackward s.iTape.left s.iTape.cur s.iTape.right 1 = some t
          ∧ s2.iTape = moveForward t)) := by
  unfold stepOnce at h
  by_cases h0 : s.iTape.cur = 0
  · rw [if_pos h0] at h; simp at h
  rw [if_neg h0] at h
  refine ⟨h0, ?_⟩
  by_cases h1 : s.iTape.cur = MOVE_FORWARD
  · rw [if_pos h1] at h; cases Option.some.inj h; exact Or.inl rfl
  rw [if_neg h1] at h
  by_cases h2 : s.iTape.cur = MOVE_BACKWARD
  · rw [if_pos h2] at h; cases Option.some.inj h; exact Or.inl rfl
  rw [if_neg h2] at h
  by_cases h3 : s.iTape.cur = INCREMENT_DATA
  · rw [if_pos h3] at h; cases Option.some.inj h; exact Or.inl rfl
  rw [if_neg h3] at h
  by_cases h4 : s.iTape.cur = DECREMENT_DATA
  · rw [if_pos h4] at h; cases Option.some.inj h; exact Or.inl rfl
  rw [if_neg h4] at h
  by_cases h5 : s.iTape.cur = OUTPUT_DATA
  · rw [if_pos h5] at h; cases Option.some.inj h; exact Or.inl rfl
  rw [if_neg h5] at h
  by_cases h6 : s.iTape.cur = INPUT_DATA
  · rw [if_pos h6] at h; cases Option.some.inj h; exact Or.inl rfl
  rw [if_neg h6] at h
  by_cases h7 : s.iTape.cur = LOOP_START
  · rw [if_pos h7] at h
    by_cases hd : s.dTape.cur = 0
    · rw [if_pos hd] at h
      rcases Option.map_eq_some'.mp h with ⟨t, hscan, hEq⟩
      cases hEq
      exact Or.inr (Or.inl ⟨t, hscan, rfl⟩)
    · rw [if_neg hd] at h; cases Option.some.inj h; exact Or.inl rfl
  rw [if_neg h7] at h
  by_cases h8 : s.iTape.cur = LOOP_END
  · rw [if_pos h8] at h
    by_cases hd : s.dTape.cur = 0
    · rw [if_pos hd] at h; cases Option.some.inj h; exact Or.inl rfl
    · rw [if_neg hd] at h
      rcases Option.map_eq_some'.mp h with ⟨t, hscan, hEq⟩
      cases hEq
      exact Or.inr (Or.inr ⟨t, hscan, rfl⟩)
  rw [if_neg h8] at h
  cases Option.some.inj h
  exact Or.inl rfl

/-- One execution step keeps the instruction tape cells whenever the tape
ends in the sentinel byte 0. -/
theorem stepOnce_toList (s s2 : MachineState)
    (hl : s.iTape.toList.getLast? = some 0) (h : stepOnce s = some s2) :
    s2.iTape.toList = s.iTape.toList := by
  obtain ⟨hc, hcase⟩ := stepOnce_cases s s2 h
  rcases hcase with h1 | ⟨t, hscan, h1⟩ | ⟨t, hscan, h1⟩
  · rw [h1]; exact moveForward_toList s.iTape hc hl
  · have ht : t.toList = s.iTape.toList :=
      scanForward_toList s.iTape.right s.iTape.left s.iTape.cur 1 t hscan
    have htc : t.cur ≠ 0 := by
      rw [scanForward_cur s.iTape.right s.iTape.left s.iTape.cur 1 t (by decide) hscan]
      decide
    rw [h1, moveForward_toList t htc (by rw [ht]; exact hl)]
    exact ht
  · have ht : t.toList = s.iTape.toList :=
      scanBackward_toList s.iTape.left s.iTape.right s.iTape.cur 1 t hscan
    have htc : t.cur ≠ 0 := by
      rw [scanBackward_cur s.iTape.left s.iTape.right s.iTape.cur 1 t (by decide) hscan]
      decide
    rw [h1, moveForward_toList t htc (by rw [ht]; exact hl)]
    exact ht

/-- Any number of execution steps keeps the instruction tape cells
whenever the tape ends in the sentinel byte 0. -/
theorem stepN_toList : ∀ (n : Nat) (s s2 : MachineState),
    s.iTape.toList.getLast? = some 0 → stepN n s = some s2 →
    s2.iTape.toList = s.iTape.toList := by
  intro n
  induction n with
  | zero => intro s s2 _ h; cases Option.some.inj h; rfl
  | succ m ih =>
    intro s s2 hl h
    simp only [stepN] at h
    rcases hstep : stepOnce s with _ | s1
    · rw [hstep] at h; simp at h
    · rw [hstep] at h
      have h2 : stepN m s1 = some s2 := h
      have hpres := stepOnce_toList s s1 hl hstep
      rw [ih s1 s2 (by rw [hpres]; exact hl) h2, hpres]

/-- A complete run keeps the instruction tape cells whenever the tape ends
in the sentinel byte 0. -/
theorem executeProgram_toList : ∀ (fuel : Nat) (s s2 : MachineState),
    s.iTape.toList.getLast? = some 0 → executeProgram fuel s = some s2 →
    s2.iTape.toList = s.iTape.toList := by
  intro fuel
  induction fuel with
  | zero =>
    intro s s2 _ h
    simp only [executeProgram] at h
    by_cases h0 : s.iTape.cur = 0
    · rw [if_pos h0] at h; cases Option.some.inj h; rfl
    · rw [if_neg h0] at h; simp at h
  | succ f ih =>
    intro s s2 hl h
    simp only [executeProgram] at h
    by_cases h0 : s.iTape.cur = 0
    · rw [if_pos h0] at h; cases Option.some.inj h; rfl
    · rw [if_neg h0] at h
      rcases hstep : stepOnce s with _ | s1
      · rw [hstep] at h; simp at h
      · rw [hstep] at h
        have h2 : executeProgram f s1 = some s2 := h
        have hpres := stepOnce_toList s s1 hl hstep
        rw [ih s1 s2 (by rw [hpres]; exact hl) h2, hpres]

/-- The loader never returns an empty cell list. -/
theorem parseAux_ne_nil : ∀ (src : List Nat) (g : Nat), parseAux src g ≠ [] := by
  intro src
  induction src with
  | nil => intro g; simp [parseAux]
  | cons b rest ih =>
    intro g
    simp only [parseAux]
    by_cases hb : b = 255
    · rw [if_pos hb]; simp
    · rw [if_neg hb]
      by_cases hi : isInstr b = true
      · rw [if_pos hi]; simp
      · rw [if_neg hi]; exact ih g

/-- With the head cell initialised to 0, the cell list built by the loader
always ends in the sentinel byte 0. -/
theorem parseAux_getLast : ∀ (src : List Nat), (parseAux src 0).getLast? = some 0 := by
  intro src
  induction src with
  | nil => rfl
  | cons b rest ih =>
    simp only [parseAux]
    by_cases hb : b = 255
    · rw [if_pos hb]; rfl
    · rw [if_neg hb]
      by_cases hi : isInstr b = true
      · rw [if_pos hi]
        obtain ⟨x, xs, hx⟩ := List.exists_cons_of_ne_nil (parseAux_ne_nil rest 0)
        rw [hx, List.getLast?_cons_cons, ← hx]
        exact ih
      · rw [if_neg hi]; exact ih

/-- If the part of the source before the first byte 255 contains at least
one command byte, the loader writes the head cell, and the cell list it
builds ends in the sentinel byte 0 whatever byte g the head cell held
before loading. -/
theorem parseAux_getLast_of_any : ∀ (src : List Nat) (g : Nat),
    (src.takeWhile (fun b => b != 255)).any isInstr = true →
    (parseAux src g).getLast? = some 0 := by
  intro src
  induction src with
  | nil => intro g h; simp at h
  | cons b rest ih =>
    intro g h
    by_cases hb : b = 255
    · rw [show List.takeWhile (fun b => b != 255) (b :: rest) = [] from by
        simp [List.takeWhile_cons, hb]] at h
      simp at h
    · rw [show List.takeWhile (fun b => b != 255) (b :: rest)
          = b :: List.takeWhile (fun b => b != 255) rest from by
        simp [List.takeWhile_cons, hb]] at h
      simp only [parseAux, if_neg hb]
      by_cases hi : isInstr b = true
      · rw [if_pos hi]
        obtain ⟨x, xs, hx⟩ := List.exists_cons_of_ne_nil (parseAux_ne_nil rest 0)
        rw [hx, List.getLast?_cons_cons, ← hx]
        exact parseAux_getLast rest
      · rw [if_neg hi]
        have hif : isInstr b = false := by
          cases hbb : isInstr b
          · rfl
          · exact absurd hbb hi
        simp only [List.any_cons, hif, Bool.false_or] at h
        exact ih g h

/-- The instruction tape of the initial state carries exactly the loaded
cell list. -/
theorem initState_iTape (src inp : List Nat) (g : Nat) :
    (initState (parseInstructions src g) inp).iTape.toList = parseInstructions src g := by
  show (initState (parseAux src g) inp).iTape.toList = parseAux src g
  obtain ⟨c, rest, hx⟩ := List.exists_cons_of_ne_nil (parseAux_ne_nil src g)
  rw [hx]
  simp [initState, Tape.toList]

/-- C9 counterexample: the empty source passes validation and loads
nothing, so the whole instruction tape is the uninitialised head byte
(here 65).  Executing it dispatches the default case once and the advance
allocates a fresh zero block, so after the run the instruction tape cells
are 65, 0 and no longer equal the loader output, the single cell 65. -/
theorem C9_counterexample :
    checkBrackets [] = true
    ∧ executeProgram 2 (initState (parseInstructions [] 65) [])
        = some ⟨⟨[65], 0, []⟩, ⟨[], 0, []⟩, [], [], [65]⟩
    ∧ (⟨⟨[65], 0, []⟩, ⟨[], 0, []⟩, [], [], [65]⟩ : MachineState).iTape.toList
        ≠ parseInstructions [] 65 :=
  ⟨by decide, rfl, by decide⟩

/-- C9 amended: for a validated program whose source holds at least one
command byte before any byte 255, the loader overwrites the head cell and
execution never changes any instruction tape cell: at every intermediate
step and after any complete run the instruction tape cells equal the cell
list produced by the loader, whatever byte g the head cell held before
loading. -/
theorem C9_itape_readonly (src inp : List Nat) (g n fuel : Nat) (s1 s2 : MachineState)
    (hv : checkBrackets src = true)
    (hload : (src.takeWhile (fun b => b != 255)).any isInstr = true) :
    (stepN n (initState (parseInstructions src g) inp) = some s1 →
      s1.iTape.toList = parseInstructions src g)
    ∧ (executeProgram fuel (initState (parseInstructions src g) inp) = some s2 →
      s2.iTape.toList = parseInstructions src g) := by
  have hlast : (initState (parseInstructions src g) inp).iTape.toList.getLast? = some 0 := by
    rw [initState_iTape]; exact parseAux_getLast_of_any src g hload
  exact ⟨fun h => by rw [stepN_toList n _ s1 hlast h, initState_iTape],
         fun h => by rw [executeProgram_toList fuel _ s2 hlast h, initState_iTape]⟩

/-- C9 witness: the single-command program + with head byte 65 before
loading, one step of execution and a completed run. -/
theorem C9_itape_readonly_witness :
    (stepN 1 (initState (parseInstructions [43] 65) []) =
        some ⟨⟨[43], 0, []⟩, ⟨[], 1, []⟩, [], [], [43]⟩ →
      (⟨⟨[43], 0, []⟩, ⟨[], 1, []⟩, [], [], [43]⟩ : MachineState).iTape.toList
        = parseInstructions [43] 65)
    ∧ (executeProgram 2 (initState (parseInstructions [43] 65) []) =
        some ⟨⟨[43], 0, []⟩, ⟨[], 1, []⟩, [], [], [43]⟩ →
      (⟨⟨[43], 0, []⟩, ⟨[], 1, []⟩, [], [], [43]⟩ : MachineState).iTape.toList
        = parseInstructions [43] 65) :=
  C9_itape_readonly [43] [] 65 1 2 ⟨⟨[43], 0, []⟩, ⟨[], 1, []⟩, [], [], [43]⟩
    ⟨⟨[43], 0, []⟩, ⟨[], 1, []⟩, [], [], [43]⟩ (by decide) (by decide)

/-- One execution step of a command other than the input command neither
reads nor keeps the input stream: the same step runs with any other input
stream in its place. -/
theorem stepOnce_input (it dt : Tape) (i1 o tr inp : List Nat) (s2 : MachineState)
    (hc : it.cur ≠ INPUT_DATA) (h : stepOnce ⟨it, dt, i1, o, tr⟩ = some s2) :
    stepOnce ⟨it, dt, inp, o, tr⟩ = some ⟨s2.iTape, s2.dTape, inp, s2.output, s2.trace⟩ := by
  unfold stepOnce at h ⊢
  dsimp only at h ⊢
  by_cases h0 : it.cur = 0
  · rw [if_pos h0] at h; simp at h
  rw [if_neg h0] at h ⊢
  by_cases h1 : it.cur = MOVE_FORWARD
  · rw [if_pos h1] at h ⊢; cases Option.some.inj h; rfl
  rw [if_neg h1] at h ⊢
  by_cases h2 : it.cur = MOVE_BACKWARD
  · rw [if_pos h2] at h ⊢; cases Option.some.inj h; rfl
  rw [if_neg h2] at h ⊢
  by_cases h3 : it.cur = INCREMENT_DATA
  · rw [if_pos h3] at h ⊢; cases Option.some.inj h; rfl
  rw [if_neg h3] at h ⊢
  by_cases h4 : it.cur = DECREMENT_DATA
  · rw [if_pos h4] at h ⊢; cases Option.some.inj h; rfl
  rw [if_neg h4] at h ⊢
  by_cases h5 : it.cur = OUTPUT_DATA
  · rw [if_pos h5] at h ⊢; cases Option.some.inj h; rfl
  rw [if_neg h5] at h ⊢
  rw [if_neg hc] at h ⊢
  by_cases h7 : it.cur = LOOP_START
  · rw [if_pos h7] at h ⊢
    by_cases hd : dt.cur = 0
    · rw [if_pos hd] at h ⊢
      rcases hscan : scanForward it.left it.cur it.right 1 with _ | t
      · rw [hscan] at h; simp at h
      · rw [hscan] at h
        rcases Option.map_eq_some'.mp h with ⟨t2, ht2, hEq⟩
        cases Option.some.inj ht2
        cases hEq
        rfl
    · rw [if_neg hd] at h ⊢; cases Option.some.inj h; rfl
  rw [if_neg h7] at h ⊢
  by_cases h8 : it.cur = LOOP_END
  · rw [if_pos h8] at h ⊢
    by_cases hd : dt.cur = 0
    · rw [if_pos hd] at h ⊢; cases Option.some.inj h; rfl
    · rw [if_neg hd] at h ⊢
      rcases hscan : scanBackward it.left it.cur it.right 1 with _ | t
      · rw [hscan] at h; simp at h
      · rw [hscan] at h
        rcases Option.map_eq_some'.mp h with ⟨t2, ht2, hEq⟩
        cases Option.some.inj ht2
        cases hEq
        rfl
  rw [if_neg h8] at h ⊢
  cases Option.some.inj h
  rfl

/-- A complete run of a program whose instruction tape ends in the
sentinel and contains no input command is oblivious to the input stream:
the same run happens with any other input stream in its place. -/
theorem executeProgram_input : ∀ (fuel : Nat) (s r : MachineState) (inp : List Nat),
    s.iTape.toList.getLast? = some 0 → INPUT_DATA ∉ s.iTape.toList →
    executeProgram fuel s = some r →
    executeProgram fuel ⟨s.iTape, s.dTape, inp, s.output, s.trace⟩
      = some ⟨r.iTape, r.dTape, inp, r.output, r.trace⟩ := by
  intro fuel
  induction fuel with
  | zero =>
    intro s r inp hl h44 h
    simp only [executeProgram] at h ⊢
    by_cases h0 : s.iTape.cur = 0
    · rw [if_pos h0] at h
      cases Option.some.inj h
      rw [if_pos h0]
    · rw [if_neg h0] at h; simp at h
  | succ f ih =>
    intro s r inp hl h44 h
    simp only [executeProgram] at h ⊢
    by_cases h0 : s.iTape.cur = 0
    · rw [if_pos h0] at h
      cases Option.some.inj h
      rw [if_pos h0]
    · rw [if_neg h0] at h
      rw [if_neg h0]
      rcases hstep : stepOnce s with _ | s1
      · rw [hstep] at h; simp at h
      · rw [hstep] at h
        have h2 : executeProgram f s1 = some r := h
        have hc : s.iTape.cur ≠ INPUT_DATA := fun hEq => h44 (hEq ▸ cur_mem_toList s.iTape)
        have hstep2 := stepOnce_input s.iTape s.dTape s.input s.output s.trace inp s1 hc hstep
        rw [hstep2]
        have hpres := stepOnce_toList s s1 hl hstep
        have := ih s1 r inp (by rw [hpres]; exact hl) (by rw [hpres]; exact h44) h2
        exact this

/-- C1: running the interpreter on the source ++>+++++[<+>-]<. with any
input stream terminates with the data cursor back on the starting cell,
that cell holding 7, and with exactly the single byte 7 emitted. -/
theorem C1_addition_loop (inp : List Nat) :
    (executeProgram 200 (initState (parseInstructions
        [43, 43, 62, 43, 43, 43, 43, 43, 91, 60, 43, 62, 45, 93, 60, 46] 0) inp)).map
      (fun s => (s.dTape.left, s.dTape.cur, s.output)) = some ([], 7, [7]) := by
  have base : executeProgram 200 (initState (parseInstructions
      [43, 43, 62, 43, 43, 43, 43, 43, 91, 60, 43, 62, 45, 93, 60, 46] 0) [])
      = some ⟨⟨[46, 60, 93, 45, 62, 43, 60, 91, 43, 43, 43, 43, 43, 62, 43, 43], 0, []⟩,
              ⟨[], 7, [0]⟩, [], [7],
              [43, 43, 62, 43, 43, 43, 43, 43, 91, 60, 43, 62, 45, 93,
               60, 43, 62, 45, 93, 60, 43, 62, 45, 93, 60, 43, 62, 45, 93,
               60, 43, 62, 45, 93, 60, 46]⟩ := rfl
  have h := executeProgram_input 200 (initState (parseInstructions
      [43, 43, 62, 43, 43, 43, 43, 43, 91, 60, 43, 62, 45, 93, 60, 46] 0) [])
      ⟨⟨[46, 60, 93, 45, 62, 43, 60, 91, 43, 43, 43, 43, 43, 62, 43, 43], 0, []⟩,
       ⟨[], 7, [0]⟩, [], [7],
       [43, 43, 62, 43, 43, 43, 43, 43, 91, 60, 43, 62, 45, 93,
        60, 43, 62, 45, 93, 60, 43, 62, 45, 93, 60, 43, 62, 45, 93,
        60, 43, 62, 45, 93, 60, 46]⟩ inp (by decide) (by decide) base
  have h2 : executeProgram 200 (initState (parseInstructions
      [43, 43, 62, 43, 43, 43, 43, 43, 91, 60, 43, 62, 45, 93, 60, 46] 0) inp)
      = some ⟨⟨[46, 60, 93, 45, 62, 43, 60, 91, 43, 43, 43, 43, 43, 62, 43, 43], 0, []⟩,
              ⟨[], 7, [0]⟩, inp, [7],
              [43, 43, 62, 43, 43, 43, 43, 43, 91, 60, 43, 62, 45, 93,
               60, 43, 62, 45, 93, 60, 43, 62, 45, 93, 60, 43, 62, 45, 93,
               60, 43, 62, 45, 93, 60, 46]⟩ := h
  rw [h2]
  rfl

/-- C1 witness: the run evaluated on the concrete input stream [9]. -/
theorem C1_addition_loop_witness :
    (executeProgram 200 (initState (parseInstructions
        [43, 43, 62, 43, 43, 43, 43, 43, 91, 60, 43, 62, 45, 93, 60, 46] 0) [9])).map
      (fun s => (s.dTape.left, s.dTape.cur, s.output)) = some ([], 7, [7]) :=
  C1_addition_loop [9]

/-- Empty stream has running depth 0. -/
theorem streamDepth_nil : streamDepth [] = 0 := rfl

/-- Running depth of a stream splits off its first byte. -/
theorem streamDepth_cons (b : Nat) (l : List Nat) :
    streamDepth (b :: l) = depthDelta b + streamDepth l := by
  simp [streamDepth]

/-- The loopCounter update of the validator is addition of the depth
contribution of the byte. -/
theorem bracketCount_eq (b : Nat) (k : Int) : bracketCount b k = k + depthDelta b := by
  simp only [bracketCount, depthDelta]
  split_ifs <;> omega

/-- Characterisation of the validator loop on streams free of the byte
255, for any starting counter value. -/
theorem checkBracketsAux_iff : ∀ (src : List Nat) (k : Int), 0 ≤ k → 255 ∉ src →
    (checkBracketsAux src k = true ↔
      ((∀ n, 0 ≤ k + streamDepth (src.take n)) ∧ k + streamDepth src = 0)) := by
  intro src
  induction src with
  | nil =>
    intro k hk h255
    simp only [checkBracketsAux]
    constructor
    · intro h
      have hk0 : k = 0 := by simpa using h
      subst hk0
      exact ⟨fun n => by simp [streamDepth], by simp [streamDepth]⟩
    · rintro ⟨hall, hsum⟩
      have hk0 : k = 0 := by simpa [streamDepth] using hsum
      simp [hk0]
  | cons b rest ih =>
    intro k hk h255
    have hb : ¬ b = 255 := by
      intro hEq
      exact h255 (by rw [hEq]; exact List.mem_cons_self 255 rest)
    have h255r : 255 ∉ rest := fun hm => h255 (List.mem_cons_of_mem b hm)
    simp only [checkBracketsAux, if_neg hb]
    by_cases hneg : bracketCount b k < 0
    · rw [if_pos hneg]
      rw [bracketCount_eq] at hneg
      constructor
      · intro h; exact absurd h (by simp)
      · rintro ⟨hall, _⟩
        exfalso
        have h1 := hall 1
        rw [List.take_succ_cons, List.take_zero, streamDepth_cons, streamDepth_nil] at h1
        omega
    · rw [if_neg hneg]
      rw [ih (bracketCount b k) (by omega) h255r]
      rw [bracketCount_eq] at hneg ⊢
      constructor
      · rintro ⟨hall, hsum⟩
        constructor
        · intro n
          cases n with
          | zero => rw [List.take_zero, streamDepth_nil]; omega
          | succ m =>
            have h2 := hall m
            rw [List.take_succ_cons, streamDepth_cons]
            omega
        · rw [streamDepth_cons]; omega
      · rintro ⟨hall, hsum⟩
        constructor
        · intro n
          have h2 := hall (n + 1)
          rw [List.take_succ_cons, streamDepth_cons] at h2
          omega
        · rw [streamDepth_cons] at hsum; omega

/-- C2 counterexample: the stream 255, 93 has running depth -1 on its
full prefix, so by the claim the validator must fail on it, yet
checkBrackets accepts it: the byte 255 read into a char compares equal to
EOF and ends validation before the unmatched loop-close is seen. -/
theorem C2_counterexample :
    checkBrackets [255, 93] = true ∧ streamDepth (List.take 2 [255, 93]) = -1 :=
  ⟨by decide, by decide⟩

/-- C2 amended: on every source stream containing no byte 255, the
validator succeeds exactly when the running depth counter stays
nonnegative on every prefix and is zero at the end of the stream; in
particular it fails whenever some prefix has negative depth. -/
theorem C2_bracket_validator (src : List Nat) (h255 : 255 ∉ src) :
    checkBrackets src = true ↔
      ((∀ n, 0 ≤ streamDepth (src.take n)) ∧ streamDepth src = 0) := by
  have h := checkBracketsAux_iff src 0 (le_refl 0) h255
  simpa using h

/-- C2 witness: the amended characterisation evaluated on the balanced
stream of one loop-open followed by one loop-close. -/
theorem C2_bracket_validator_witness :
    checkBrackets [91, 93] = true ↔
      ((∀ n, 0 ≤ streamDepth (List.take n [91, 93])) ∧ streamDepth [91, 93] = 0) :=
  C2_bracket_validator [91, 93] (by decide)

/-- The validator reads nothing past the first byte 255: it behaves as on
the stream truncated there. -/
theorem checkBracketsAux_takeWhile : ∀ (src : List Nat) (k : Int),
    checkBracketsAux src k = checkBracketsAux (src.takeWhile (fun b => b != 255)) k := by
  intro src
  induction src with
  | nil => intro k; rfl
  | cons b rest ih =>
    intro k
    by_cases hb : b = 255
    · subst hb
      rw [show List.takeWhile (fun b => b != 255) (255 :: rest) = [] from by
        simp [List.takeWhile_cons]]
      simp [checkBracketsAux]
    · rw [show List.takeWhile (fun b => b != 255) (b :: rest)
          = b :: List.takeWhile (fun b => b != 255) rest from by
        simp [List.takeWhile_cons, hb]]
      simp only [checkBracketsAux, if_neg hb]
      by_cases hneg : bracketCount b k < 0
      · rw [if_pos hneg, if_pos hneg]
      · rw [if_neg hneg, if_neg hneg]
        exact ih (bracketCount b k)

/-- The loader reads nothing past the first byte 255: it behaves as on
the stream truncated there. -/
theorem parseAux_takeWhile : ∀ (src : List Nat) (g : Nat),
    parseAux src g = parseAux (src.takeWhile (fun b => b != 255)) g := by
  intro src
  induction src with
  | nil => intro g; rfl
  | cons b rest ih =>
    intro g
    by_cases hb : b = 255
    · subst hb
      rw [show List.takeWhile (fun b => b != 255) (255 :: rest) = [] from by
        simp [List.takeWhile_cons]]
      simp [parseAux]
    · rw [show List.takeWhile (fun b => b != 255) (b :: rest)
          = b :: List.takeWhile (fun b => b != 255) rest from by
        simp [List.takeWhile_cons, hb]]
      simp only [parseAux, if_neg hb]
      by_cases hi : isInstr b = true
      · rw [if_pos hi, if_pos hi, ih 0]
      · rw [if_neg hi, if_neg hi]
        exact ih g

/-- C10: both the validator and the loader treat a source byte 255, the
byte whose char value equals EOF, as end of the source stream: each
behaves exactly as on the prefix before the first such byte, and bytes
after it, command bytes included, are neither validated nor loaded, as
the two concrete evaluations illustrate. -/
theorem C10_ff_truncation (src : List Nat) :
    checkBrackets src = checkBrackets (src.takeWhile (fun b => b != 255))
    ∧ (∀ g, parseInstructions src g = parseInstructions (src.takeWhile (fun b => b != 255)) g)
    ∧ checkBrackets [255, 93, 93] = true
    ∧ parseInstructions [255, 43] 0 = [0] :=
  ⟨checkBracketsAux_takeWhile src 0, fun g => parseAux_takeWhile src g, by decide, by decide⟩

/-- C10 witness: the truncation equations evaluated on a concrete stream
with command bytes on both sides of the byte 255. -/
theorem C10_ff_truncation_witness :
    checkBrackets [91, 93, 255, 93] = checkBrackets (List.takeWhile (fun b => b != 255) [91, 93, 255, 93])
    ∧ (∀ g, parseInstructions [91, 93, 255, 93] g
        = parseInstructions (List.takeWhile (fun b => b != 255) [91, 93, 255, 93]) g)
    ∧ checkBrackets [255, 93, 93] = true
    ∧ parseInstructions [255, 43] 0 = [0] :=
  C10_ff_truncation [91, 93, 255, 93]

/-- C4 counterexample helper: once the instruction pointer of the program
+[] sits on the loop-close with a nonzero data cell, one step scans back
to the loop-open and the advance puts the pointer back on the loop-close:
the state repeats except for the ghost trace. -/
theorem stepBracketLoop (inp out tr dl dr : List Nat) (d : Nat) (hd : d ≠ 0) :
    stepOnce ⟨⟨[91, 43], 93, [0]⟩, ⟨dl, d, dr⟩, inp, out, tr⟩
      = some ⟨⟨[91, 43], 93, [0]⟩, ⟨dl, d, dr⟩, inp, out, tr ++ [93]⟩ := by
  simp [stepOnce, hd, scanBackward, bwdCounter, moveForward, moveForward_cons, LOOP_START,
        LOOP_END, MOVE_FORWARD, MOVE_BACKWARD, INCREMENT_DATA, DECREMENT_DATA, OUTPUT_DATA,
        INPUT_DATA]

/-- C4 counterexample helper: from the repeating state of the program +[]
no amount of fuel reaches the sentinel. -/
theorem loopForever : ∀ (fuel : Nat) (inp out tr dl dr : List Nat) (d : Nat), d ≠ 0 →
    executeProgram fuel ⟨⟨[91, 43], 93, [0]⟩, ⟨dl, d, dr⟩, inp, out, tr⟩ = none := by
  intro fuel
  induction fuel with
  | zero =>
    intro inp out tr dl dr d hd
    simp [executeProgram]
  | succ f ih =>
    intro inp out tr dl dr d hd
    simp only [executeProgram]
    dsimp only
    rw [if_neg (by decide : ¬ (93 : Nat) = 0), stepBracketLoop inp out tr dl dr d hd]
    exact ih inp out (tr ++ [93]) dl dr d hd

/-- C4 counterexample helper: the validated program +[] never terminates
at any fuel bound. -/
theorem plusLoopNone : ∀ fuel,
    executeProgram fuel (initState (parseInstructions [43, 91, 93] 0) []) = none := by
  intro fuel
  match fuel with
  | 0 => rfl
  | 1 => rfl
  | 2 => rfl
  | (f + 3) =>
    have h3 : executeProgram (f + 3) (initState (parseInstructions [43, 91, 93] 0) [])
        = executeProgram f ⟨⟨[91, 43], 93, [0]⟩, ⟨[], 1, []⟩, [], [], [43, 91, 93]⟩ := rfl
    rw [h3]
    exact loopForever f [] [] [43, 91, 93] [] [] 1 (by decide)

/-- C4 counterexample: the validated program +[] reaches the loop-open of
the empty loop with the data cell nonzero; by the claim it would execute
the empty body once, exit the loop and terminate, but the interpreter
never terminates on it. -/
theorem C4_counterexample :
    checkBrackets [43, 91, 93] = true
    ∧ ¬ Terminates (initState (parseInstructions [43, 91, 93] 0) []) := by
  refine ⟨by decide, ?_⟩
  rintro ⟨fuel, r, hr⟩
  rw [plusLoopNone fuel] at hr
  cases hr

/-- C4 amended: executing the loop-open of an empty loop with the data
cell zero jumps to the loop-close and, after the advance, continues right
after it in a single step; with the data cell nonzero the loop-open falls
through to the loop-close and the loop-close jumps back, returning the
instruction pointer to the loop-close itself, so the empty loop never
exits. -/
theorem C4_empty_loop (l r dl dr inp out tr : List Nat) (d : Nat) :
    (stepOnce ⟨⟨l, 91, 93 :: r⟩, ⟨dl, 0, dr⟩, inp, out, tr⟩
       = some ⟨moveForward ⟨91 :: l, 93, r⟩, ⟨dl, 0, dr⟩, inp, out, tr ++ [91]⟩)
    ∧ (d ≠ 0 →
      stepOnce ⟨⟨l, 91, 93 :: r⟩, ⟨dl, d, dr⟩, inp, out, tr⟩
        = some ⟨⟨91 :: l, 93, r⟩, ⟨dl, d, dr⟩, inp, out, tr ++ [91]⟩
      ∧ stepOnce ⟨⟨91 :: l, 93, r⟩, ⟨dl, d, dr⟩, inp, out, tr ++ [91]⟩
        = some ⟨⟨91 :: l, 93, r⟩, ⟨dl, d, dr⟩, inp, out, (tr ++ [91]) ++ [93]⟩) := by
  refine ⟨rfl, fun hd => ⟨?_, ?_⟩⟩
  · simp [stepOnce, hd, moveForward_cons, LOOP_START, LOOP_END, MOVE_FORWARD, MOVE_BACKWARD,
          INCREMENT_DATA, DECREMENT_DATA, OUTPUT_DATA, INPUT_DATA]
  · simp [stepOnce, hd, scanBackward, bwdCounter, moveForward_cons, LOOP_START, LOOP_END,
          MOVE_FORWARD, MOVE_BACKWARD, INCREMENT_DATA, DECREMENT_DATA, OUTPUT_DATA,
          INPUT_DATA]

/-- C4 witness: the amended behaviour evaluated on the bare empty loop
with data cell 0 and with data cell 1. -/
theorem C4_empty_loop_witness :
    (stepOnce ⟨⟨[], 91, [93, 0]⟩, ⟨[], 0, []⟩, [], [], []⟩
       = some ⟨moveForward ⟨[91], 93, [0]⟩, ⟨[], 0, []⟩, [], [], [91]⟩)
    ∧ (stepOnce ⟨⟨[], 91, [93, 0]⟩, ⟨[], 1, []⟩, [], [], []⟩
        = some ⟨⟨[91], 93, [0]⟩, ⟨[], 1, []⟩, [], [], [91]⟩
      ∧ stepOnce ⟨⟨[91], 93, [0]⟩, ⟨[], 1, []⟩, [], [], [91]⟩
        = some ⟨⟨[91], 93, [0]⟩, ⟨[], 1, []⟩, [], [], [91, 93]⟩) :=
  ⟨(C4_empty_loop [] [0] [] [] [] [] [] 0).1,
   (C4_empty_loop [] [0] [] [] [] [] [] 1).2 (by decide)⟩

/-- Reading the empty input stream leaves the cell pinned at the EOF byte
255 and the stream empty, no matter how often it is read. -/
theorem inputReads_empty : ∀ (k : Nat) (l r : List Nat),
    inputReads k (⟨l, 255, r⟩, []) = (⟨l, 255, r⟩, []) := by
  intro k
  induction k with
  | zero => intro l r; rfl
  | succ n ih => intro l r; exact ih l r

/-- C8: once the input stream is exhausted every further input command
stores the same pinned byte: after any K of at least 1 reads past end of
stream the cell holds exactly what it holds after the first such read,
namely the EOF byte 255. -/
theorem C8_input_idempotent (K : Nat) (t : Tape) (hK : 1 ≤ K) :
    (inputReads K (t, [])).1.cur = (inputReads 1 (t, [])).1.cur
    ∧ (inputReads 1 (t, [])).1.cur = 255 := by
  obtain ⟨l, c, r⟩ := t
  obtain ⟨k, rfl⟩ : ∃ k, K = k + 1 := ⟨K - 1, by omega⟩
  constructor
  · have h1 : inputReads (k + 1) ((⟨l, c, r⟩ : Tape), ([] : List Nat))
        = inputReads k (⟨l, 255, r⟩, []) := rfl
    rw [h1, inputReads_empty]
    rfl
  · rfl

/-- C8 witness: three reads past end of stream agree with the first. -/
theorem C8_input_idempotent_witness :
    ((inputReads 3 ((⟨[], 7, []⟩ : Tape), ([] : List Nat))).1.cur
       = (inputReads 1 ((⟨[], 7, []⟩ : Tape), ([] : List Nat))).1.cur)
    ∧ (inputReads 1 ((⟨[], 7, []⟩ : Tape), ([] : List Nat))).1.cur = 255 :=
  C8_input_idempotent 3 ⟨[], 7, []⟩ (by decide)
